import Mathlib

set_option linter.unusedVariables false

/-!
Shallow embedding of the dice core of the `roll` repository
(`internal/dice/dice.go`), together with proofs settling the frozen claims
about its specification.

Modelling conventions:
* Go `int` is modelled as `Int` (64-bit overflow is modelled explicitly in
  the places where `strconv.Atoi` range-checks matter).
* Go strings handled by the parser and loader are modelled as `List Char`;
  they are converted to `String` only where the source stores them in a
  result (names, error messages).
* The global map `fancyDiceValues` is modelled as an association list
  passed explicitly (`Registry`); `map[k]` lookup is `lookupReg`.
* Randomness: `math/rand/v2.IntN` is modelled by an oracle stream
  `rs : List Nat` threaded through the computation.  Each call to `IntN`
  consumes the head of the stream; the contract "`IntN n` returns a value
  in `[0, n)`" becomes a hypothesis on the consumed entries (for the
  sampler, membership of the stream in `streams k n`).  `Die.RollChecked`
  additionally models the panic condition of `IntN` (`n <= 0`) with
  `Option`.
-/

namespace Dice

/-- Go: `type Die struct { Sides int }`. -/
structure Die where
  Sides : Int
deriving Repr, DecidableEq

instance : Inhabited Die := ⟨⟨0⟩⟩

/-- Go: `type DiceSet struct { Dice []Die }`. -/
structure DiceSet where
  Dice : List Die
deriving Repr, DecidableEq

/-- Go: `type DieRoll struct { Die Die; Result int; Type string; FancyValue string }`.
The Go field `Type` is named `Type'` here (`Type` is not a usable field name
in Lean). -/
structure DieRoll where
  Die : Die
  Result : Int
  Type' : String
  FancyValue : String
deriving Repr, DecidableEq

/-- Go: `type FancyDieValue struct { Name string; Value int }`. -/
structure FancyDieValue where
  Name : String
  Value : Int
deriving Repr, DecidableEq

instance : Inhabited FancyDieValue := ⟨⟨"", 0⟩⟩

/-- Go: `type RollResult struct { DieRolls []DieRoll; IndividualRolls []int; Total int }`. -/
structure RollResult where
  DieRolls : List DieRoll
  IndividualRolls : List Int
  Total : Int
deriving Repr, DecidableEq

/-- The global `map[string][]FancyDieValue` is modelled as an association
list; `lookupReg` is `m[k]` lookup (`comma-ok` form). -/
abbrev Registry := List (String × List FancyDieValue)

def lookupReg (reg : Registry) (key : String) : Option (List FancyDieValue) :=
  (reg.find? (fun p => p.1 == key)).map (fun p => p.2)

/-- Go: `generateZodiacValues` — zodiac signs with scores `i+1`. -/
def generateZodiacValues : List FancyDieValue :=
  (["♈", "♉", "♊", "♋", "♌", "♍", "♎", "♏", "♐", "♑", "♒", "♓"].enum).map
    (fun p => ⟨p.2, (p.1 : Int) + 1⟩)

/-- Go: `generatePlayingCardValues` — all 52 cards, scores 1..52 in
construction order (the loop appends with `Value = len(cards)+1`). -/
def generatePlayingCardValues : List FancyDieValue :=
  (["♣", "♦", "♥", "♠"].foldl (fun cards suit =>
    (["2", "3", "4", "5", "6", "7", "8", "9", "10", "J", "Q", "K", "A"].foldl
      (fun cards rank => cards ++ [⟨rank ++ suit, (cards.length : Int) + 1⟩]) cards)) [])

/-- Go: the initial contents of the global `fancyDiceValues` map. -/
def fancyDiceValues : Registry :=
  [("f2", [⟨"heads", 1⟩, ⟨"tails", 0⟩]),
   ("f4", [⟨"♠", 4⟩, ⟨"♥", 3⟩, ⟨"♦", 2⟩, ⟨"♣", 1⟩]),
   ("f6", [⟨"1⚀", 1⟩, ⟨"2⚁", 2⟩, ⟨"3⚂", 3⟩, ⟨"4⚃", 4⟩, ⟨"5⚄", 5⟩, ⟨"6⚅", 6⟩]),
   ("f7", [⟨"Mon", 1⟩, ⟨"Tue", 2⟩, ⟨"Wed", 3⟩, ⟨"Thu", 4⟩, ⟨"Fri", 5⟩, ⟨"Sat", 6⟩, ⟨"Sun", 7⟩]),
   ("f12", generateZodiacValues),
   ("f13", [⟨"A", 4⟩, ⟨"2", 0⟩, ⟨"3", 0⟩, ⟨"4", 0⟩, ⟨"5", 0⟩, ⟨"6", 0⟩, ⟨"7", 0⟩,
            ⟨"8", 0⟩, ⟨"9", 0⟩, ⟨"10", 0⟩, ⟨"J", 1⟩, ⟨"Q", 2⟩, ⟨"K", 3⟩]),
   ("f52", generatePlayingCardValues)]

/-! ### Without-replacement sampler (`selectWithoutReplacement`, `selectFromSlice`) -/

/-- The in-place swap `values[0], values[i] = values[i], values[0]` performed
by `selectFromSlice` (Go would panic for `i >= len(values)`; `List.set` is a
no-op there, and all uses are in range). -/
def swapFront (l : List Int) (i : Nat) : List Int :=
  (l.set 0 (l.getD i 0)).set i (l.getD 0 0)

/-- Go: `selectFromSlice(values []int, n int) []int`, with the random oracle
stream made explicit.  Each recursion step consumes one oracle entry, which
stands for the result of `rand.IntN(len(values))`.  The pair's second
component is the unconsumed remainder of the stream. -/
def selectFromSlice : List Int → Nat → List Nat → List Int × List Nat
  | _, 0, rs => ([], rs)
  | [], _ + 1, rs => ([], rs)
  | v :: vs, 1, rs =>
    -- base case: pick one at random, no swap
    ([(v :: vs).getD rs.headI 0], rs.tail)
  | v :: vs, n + 2, rs =>
    -- swap the selected value to the front, take it, recurse on the rest
    let values' := swapFront (v :: vs) rs.headI
    let rest := selectFromSlice values'.tail (n + 1) rs.tail
    (values'.headI :: rest.1, rest.2)

/-- Go: `selectWithoutReplacement(k, n int) []int` — guard, build
`[1, 2, ..., k]`, then `selectFromSlice`. -/
def selectWithoutReplacement (k n : Int) (rs : List Nat) : List Int × List Nat :=
  if n ≤ 0 ∨ k ≤ 0 ∨ k < n then ([], rs)
  else selectFromSlice ((List.range k.toNat).map (fun i => (Nat.cast i + 1 : Int))) n.toNat rs

/-- All random oracle streams a run of `selectFromSlice` on a slice of
length `k` can consume when asked for `n` values: the `i`-th entry is a
result of `rand.IntN (k - i)`, hence `< k - i`.  These are the elementary,
equally likely outcomes of the sampler's randomness. -/
def streams : Nat → Nat → List (List Nat)
  | _, 0 => [[]]
  | k, n + 1 => (List.range k).flatMap (fun r => (streams (k - 1) n).map (fun rs => r :: rs))

/-! ### Single-die rolling (`Die.Roll`) -/

/-- Go: `func (d Die) Roll() int`, oracle-stream form.  The consumed oracle
entry `rs.headI` stands for the result of `rand.IntN(bound)`; theorems that
depend on the RNG contract add the hypothesis that it is below the bound.
A branch that does not reach `rand.IntN` consumes nothing. -/
def Die.Roll (reg : Registry) (d : Die) (rs : List Nat) : Int × List Nat :=
  if d.Sides ≤ 0 then
    if d.Sides < 0 then
      -- fancy die: look the kind up, roll a 1-based index
      match lookupReg reg ("f" ++ toString (-d.Sides)) with
      | some _ => ((rs.headI : Int) + 1, rs.tail)
      | none => (0, rs)
    else (0, rs)
  else ((rs.headI : Int) + 1, rs.tail)

/-- `rand.IntN bound` with its panic condition visible: `none` models the
panic on `bound <= 0`, otherwise the result is a value in `[0, bound)`. -/
def intN (bound : Int) (r : Nat) : Option Int :=
  if bound ≤ 0 then none else some ((r % bound.toNat : Nat) : Int)

/-- Go: `func (d Die) Roll() int` again, but with `rand.IntN`'s panic
condition modelled (`none` = the Go call would panic).  Used to settle the
totality claim about `Die.Roll`. -/
def Die.RollChecked (reg : Registry) (d : Die) (r : Nat) : Option Int :=
  if d.Sides ≤ 0 then
    if d.Sides < 0 then
      match lookupReg reg ("f" ++ toString (-d.Sides)) with
      | some values => (intN (values.length : Int) r).map (fun v => v + 1)
      | none => some 0
    else some 0
  else (intN d.Sides r).map (fun v => v + 1)

/-! ### Grouping of exclusive dice (`groupExclusiveDice`) -/

/-- Go: `type ExclusiveGroup struct { Dice []Die; IsExclusive bool; IsFancy bool }`. -/
structure ExclusiveGroup where
  Dice : List Die
  IsExclusive : Bool
  IsFancy : Bool
deriving Repr, DecidableEq

/-- The classification at the top of the loop body of `groupExclusiveDice`:
`Sides > 1000` is exclusive regular, `Sides < -1000` is exclusive fancy. -/
def classify (d : Die) : Bool × Bool :=
  if d.Sides > 1000 then (true, false)
  else if d.Sides < -1000 then (true, true)
  else (false, false)

/-- One iteration of the loop body of `groupExclusiveDice`: the accumulator
is `(finished groups, current group)`. -/
def groupStep (acc : List ExclusiveGroup × ExclusiveGroup) (die : Die) :
    List ExclusiveGroup × ExclusiveGroup :=
  let c := classify die
  if acc.2.Dice.isEmpty || (acc.2.IsExclusive == c.1 && acc.2.IsFancy == c.2) then
    (acc.1, ⟨acc.2.Dice ++ [die], c.1, c.2⟩)
  else
    (acc.1 ++ [acc.2], ⟨[die], c.1, c.2⟩)

/-- Go: `func (ds DiceSet) groupExclusiveDice() []ExclusiveGroup`. -/
def groupExclusiveDice (ds : DiceSet) : List ExclusiveGroup :=
  let acc := ds.Dice.foldl groupStep ([], ⟨[], false, false⟩)
  if acc.2.Dice.isEmpty then acc.1 else acc.1 ++ [acc.2]

/-! ### Rolling a set (`DiceSet.Roll`) -/

/-- Go: `func (ds DiceSet) rollExclusiveGroup(group ExclusiveGroup) []int`,
oracle-stream form. -/
def rollExclusiveGroup (reg : Registry) (g : ExclusiveGroup) (rs : List Nat) :
    List Int × List Nat :=
  if !g.IsExclusive || g.Dice.isEmpty then ([], rs)
  else if g.IsFancy then
    let firstDie := g.Dice.headI
    let originalType := -(firstDie.Sides + 1000)
    match lookupReg reg ("f" ++ toString originalType) with
    | some values =>
      -- the Go code copies the selected indices into `results` unchanged
      selectWithoutReplacement (values.length : Int) (g.Dice.length : Int) rs
    | none =>
      -- fallback for unknown fancy dice: every result is `originalType`
      (g.Dice.map (fun _ => originalType), rs)
  else
    let firstDie := g.Dice.headI
    selectWithoutReplacement (firstDie.Sides - 1000) (g.Dice.length : Int) rs

/-- The body of `for i, value := range values` inside the exclusive branch
of `DiceSet.Roll`: builds the `DieRoll` for one die and the amount added to
`total` for it. -/
def rollExclusiveDie (reg : Registry) (isFancy : Bool) (die : Die) (value : Int) :
    DieRoll × Int :=
  if isFancy then
    let originalType := -(die.Sides + 1000)
    let fancyType := "f" ++ toString originalType
    let resolved : String × Int :=
      match lookupReg reg fancyType with
      | some fancyValues =>
        if 0 < value ∧ value ≤ (fancyValues.length : Int) then
          ((fancyValues.getD (value.toNat - 1) default).Name,
           (fancyValues.getD (value.toNat - 1) default).Value)
        else ("", 0)
      | none => ("", 0)
    (⟨⟨-originalType⟩, value, fancyType, resolved.1⟩, resolved.2)
  else
    let originalSides := die.Sides - 1000
    (⟨⟨originalSides⟩, value, "d" ++ toString originalSides, ""⟩, value)

/-- Accumulated output of a run of the loop bodies of `DiceSet.Roll`. -/
structure GroupParts where
  dieRolls : List DieRoll
  rolls : List Int
  total : Int
deriving Repr, DecidableEq

/-- The exclusive-branch loop of `DiceSet.Roll` over the enumerated sampled
values (`for i, value := range values`, with `die := group.Dice[i]`). -/
def rollExclusiveLoop (reg : Registry) (isFancy : Bool) (dice : List Die) :
    List (Nat × Int) → GroupParts
  | [] => ⟨[], [], 0⟩
  | (i, value) :: rest =>
    let p := rollExclusiveDie reg isFancy (dice.getD i default) value
    let parts := rollExclusiveLoop reg isFancy dice rest
    ⟨p.1 :: parts.dieRolls, value :: parts.rolls, p.2 + parts.total⟩

/-- The body of `for _, die := range group.Dice` in the non-exclusive branch
of `DiceSet.Roll`, given the value `die.Roll()` returned. -/
def rollPlainDie (reg : Registry) (die : Die) (roll : Int) : DieRoll × Int :=
  if die.Sides < 0 then
    let fancyType := "f" ++ toString (-die.Sides)
    match lookupReg reg fancyType with
    | some values =>
      if 0 < roll ∧ roll ≤ (values.length : Int) then
        (⟨die, roll, fancyType, (values.getD (roll.toNat - 1) default).Name⟩,
         (values.getD (roll.toNat - 1) default).Value)
      else (⟨die, roll, fancyType, ""⟩, 0)
    | none => (⟨die, roll, fancyType, ""⟩, 0)
  else
    (⟨die, roll, "d" ++ toString die.Sides, ""⟩, roll)

/-- The non-exclusive branch loop of `DiceSet.Roll`, threading the oracle. -/
def rollPlainLoop (reg : Registry) : List Die → List Nat → GroupParts × List Nat
  | [], rs => (⟨[], [], 0⟩, rs)
  | die :: rest, rs =>
    let r := Die.Roll reg die rs
    let p := rollPlainDie reg die r.1
    let next := rollPlainLoop reg rest r.2
    (⟨p.1 :: next.1.dieRolls, r.1 :: next.1.rolls, p.2 + next.1.total⟩, next.2)

/-- One iteration of `for _, group := range exclusiveGroups` in
`DiceSet.Roll`. -/
def rollGroup (reg : Registry) (g : ExclusiveGroup) (rs : List Nat) :
    GroupParts × List Nat :=
  if g.IsExclusive then
    let vr := rollExclusiveGroup reg g rs
    (rollExclusiveLoop reg g.IsFancy g.Dice vr.1.enum, vr.2)
  else
    rollPlainLoop reg g.Dice rs

/-- The group loop of `DiceSet.Roll`. -/
def rollGroups (reg : Registry) : List ExclusiveGroup → List Nat → GroupParts × List Nat
  | [], rs => (⟨[], [], 0⟩, rs)
  | g :: gs, rs =>
    let a := rollGroup reg g rs
    let b := rollGroups reg gs a.2
    (⟨a.1.dieRolls ++ b.1.dieRolls, a.1.rolls ++ b.1.rolls, a.1.total + b.1.total⟩, b.2)

/-- Go: `func (ds DiceSet) Roll() RollResult`, oracle-stream form. -/
def DiceSet.Roll (reg : Registry) (ds : DiceSet) (rs : List Nat) : RollResult :=
  let p := rollGroups reg (groupExclusiveDice ds) rs
  ⟨p.1.dieRolls, p.1.rolls, p.1.total⟩

/-- The scoring contribution of one returned outcome, read off the outcome
alone: the numeric face value for a standard die (`Sides >= 0`), and the
resolved `FancyDieValue`'s score for a symbolic die (negative `Sides`),
`0` when the symbolic value does not resolve. -/
def contribution (reg : Registry) (dr : DieRoll) : Int :=
  if dr.Die.Sides < 0 then
    match lookupReg reg ("f" ++ toString (-dr.Die.Sides)) with
    | some values =>
      if 0 < dr.Result ∧ dr.Result ≤ (values.length : Int) then
        (values.getD (dr.Result.toNat - 1) default).Value
      else 0
    | none => 0
  else dr.Result

/-! ### Notation parser (`ParseDiceNotation` and helpers)

Strings are handled as `List Char`.  `trimChars`, `splitFields`,
`splitComma` model `strings.TrimSpace`, `strings.Fields` and
`strings.Split(s, ",")` (Go trims/splits on Unicode white space; the claims
only involve ASCII input, where `Char.isWhitespace` agrees). -/

def trimChars (cs : List Char) : List Char :=
  ((cs.dropWhile Char.isWhitespace).reverse.dropWhile Char.isWhitespace).reverse

/-- `strings.Fields`: split on white space, discarding empty fields.  The
first argument accumulates the current field in reverse. -/
def splitFieldsAux : List Char → List Char → List (List Char)
  | [], cur => if cur.isEmpty then [] else [cur.reverse]
  | c :: rest, cur =>
    if c.isWhitespace then
      if cur.isEmpty then splitFieldsAux rest []
      else cur.reverse :: splitFieldsAux rest []
    else splitFieldsAux rest (c :: cur)

def splitFields (cs : List Char) : List (List Char) := splitFieldsAux cs []

/-- `strings.Split(s, ",")`: split at every comma (`Split("", ",") = [""]`,
so the result is always non-empty). -/
def splitComma : List Char → List (List Char)
  | [] => [[]]
  | c :: rest =>
    if c = ',' then [] :: splitComma rest
    else
      match splitComma rest with
      | [] => [[c]]
      | p :: ps => (c :: p) :: ps

/-- The decimal value of a digit string (used after a `\d`-pattern match). -/
def digitsVal (cs : List Char) : Nat :=
  cs.foldl (fun n c => n * 10 + (c.toNat - 48)) 0

/-- `strconv.Atoi` restricted to unsigned decimal input: the value, or
`none` for the error cases (empty, a non-digit, or 64-bit overflow — Go's
`Atoi` fails with `ErrRange` beyond `1<<63 - 1`). -/
def atoiDigits (cs : List Char) : Option Int :=
  if cs.isEmpty then none
  else if cs.all Char.isDigit then
    if digitsVal cs ≤ 9223372036854775807 then some (digitsVal cs) else none
  else none

/-- The `fancyTypeNum, _ := strconv.Atoi(typeStr)` conversions, which ignore
the error: on positive overflow Go's `Atoi` returns the clamped maximum.
Callers pass `\d+` matches, so no other error case arises. -/
def atoiDigitsLoose (cs : List Char) : Int :=
  if digitsVal cs ≤ 9223372036854775807 then digitsVal cs else 9223372036854775807

/-- Full `strconv.Atoi` (optional sign, decimal digits, 64-bit range). -/
def goAtoi : List Char → Option Int
  | '+' :: rest => atoiDigits rest
  | '-' :: rest =>
    if !rest.isEmpty && rest.all Char.isDigit && digitsVal rest ≤ 9223372036854775808
    then some (-(digitsVal rest : Int)) else none
  | cs => atoiDigits cs

/-- Split `cs` at the first occurrence of `letter`, or `none`. -/
def splitAtLetter (letter : Char) : List Char → Option (List Char × List Char)
  | [] => none
  | c :: rest =>
    if c = letter then some ([], rest)
    else
      match splitAtLetter letter rest with
      | some (pre, post) => some (c :: pre, post)
      | none => none

/-- A match of the anchored pattern `(\d*)L(\d+)` (as used by the four
`regexp.MustCompile` patterns of `parseSingleDiceGroup`), returning the two
capture groups.  A string matches that pattern exactly when its first
occurrence of `L` is preceded by digits only and followed by one or more
digits (digits never contain `L`, so a match can only split at the first
occurrence). -/
def matchDicePattern (letter : Char) (cs : List Char) : Option (List Char × List Char) :=
  match splitAtLetter letter cs with
  | some (pre, post) =>
    if pre.all Char.isDigit && !post.isEmpty && post.all Char.isDigit then some (pre, post)
    else none
  | none => none

/-- The shared `count` handling of `parseFancyDice`,
`parseExclusiveRegularDice` and `parseExclusiveFancyDice`: default 1 when
absent, otherwise `Atoi` with positivity check (`err != nil || count <= 0`
collapses to `none`). -/
def parseCount (countStr : List Char) : Option Int :=
  if countStr.isEmpty then some 1
  else
    match atoiDigits countStr with
    | some c => if c ≤ 0 then none else some c
    | none => none

/-- Go: `parseFancyDice(countStr, typeStr string) ([]Die, error)`; fancy
dice are encoded with negative `Sides`. -/
def parseFancyDice (reg : Registry) (countStr typeStr : List Char) :
    Except String (List Die) :=
  match parseCount countStr with
  | none => .error ("invalid dice count: " ++ String.mk countStr)
  | some count =>
    let fancyType := "f" ++ String.mk typeStr
    match lookupReg reg fancyType with
    | none => .error ("unsupported fancy dice type: " ++ fancyType)
    | some _ =>
      let fancyTypeNum := atoiDigitsLoose typeStr
      .ok (List.replicate count.toNat ⟨-fancyTypeNum⟩)

/-- Go: `parseExclusiveRegularDice(countStr, sidesStr string)`; exclusive
regular dice are encoded as `sides + 1000`. -/
def parseExclusiveRegularDice (countStr sidesStr : List Char) :
    Except String (List Die) :=
  match parseCount countStr with
  | none => .error ("invalid dice count: " ++ String.mk countStr)
  | some count =>
    match (match atoiDigits sidesStr with
           | some s => if s ≤ 0 then none else some s
           | none => none) with
    | none => .error ("invalid dice sides: " ++ String.mk sidesStr)
    | some sides =>
      if sides < count then
        .error ("cannot roll " ++ toString count ++ " exclusive dice with only " ++
          toString sides ++ " sides")
      else .ok (List.replicate count.toNat ⟨sides + 1000⟩)

/-- Go: `parseExclusiveFancyDice(countStr, typeStr string)`; exclusive fancy
dice are encoded as `-type - 1000`. -/
def parseExclusiveFancyDice (reg : Registry) (countStr typeStr : List Char) :
    Except String (List Die) :=
  match parseCount countStr with
  | none => .error ("invalid dice count: " ++ String.mk countStr)
  | some count =>
    let fancyType := "f" ++ String.mk typeStr
    match lookupReg reg fancyType with
    | none => .error ("unsupported fancy dice type: " ++ fancyType)
    | some values =>
      if (values.length : Int) < count then
        .error ("cannot roll " ++ toString count ++ " exclusive " ++ fancyType ++
          " dice with only " ++ toString values.length ++ " values")
      else
        .ok (List.replicate count.toNat ⟨-(atoiDigitsLoose typeStr) - 1000⟩)

/-- Go: `parseSingleDiceGroup(group string) ([]Die, error)` — the four
patterns are tried in the order `F`, `D`, `f`, `d`; the `d` case carries its
own count/sides handling with distinct error messages. -/
def parseSingleDiceGroup (reg : Registry) (group : List Char) :
    Except String (List Die) :=
  let group := trimChars group
  if group.isEmpty then .error "empty dice group"
  else
    match matchDicePattern 'F' group with
    | some (c, t) => parseExclusiveFancyDice reg c t
    | none =>
    match matchDicePattern 'D' group with
    | some (c, s) => parseExclusiveRegularDice c s
    | none =>
    match matchDicePattern 'f' group with
    | some (c, t) => parseFancyDice reg c t
    | none =>
    match matchDicePattern 'd' group with
    | none => .error ("invalid dice notation: " ++ String.mk group)
    | some (c, s) =>
      match (if c.isEmpty then .ok 1 else
             match atoiDigits c with
             | some v => .ok v
             | none => .error ("invalid number of dice: " ++ String.mk c) :
             Except String Int) with
      | .error e => .error e
      | .ok count =>
        match (match atoiDigits s with
               | some v => .ok v
               | none => .error ("invalid number of sides: " ++ String.mk s) :
               Except String Int) with
        | .error e => .error e
        | .ok sides =>
          if count ≤ 0 then
            .error ("dice count must be positive, got: " ++ toString count)
          else if sides ≤ 0 then
            .error ("dice sides must be positive, got: " ++ toString sides)
          else .ok (List.replicate count.toNat ⟨sides⟩)

/-- Go: `ParseDiceNotation(notation string) (DiceSet, error)` — trim, split
on space/comma/plus, parse each group, concatenate. -/
def parseDice (reg : Registry) (s : String) : Except String DiceSet :=
  let cs := trimChars s.toList
  if cs.isEmpty then .error "empty dice notation"
  else
    let parts := splitFields (cs.map (fun c => if c = ',' ∨ c = '+' then ' ' else c))
    match parts.foldlM (fun acc part => (parseSingleDiceGroup reg part).map
        (fun dice => acc ++ dice)) ([] : List Die) with
    | .error e => .error e
    | .ok allDice =>
      if allDice.isEmpty then .error ("no valid dice found in notation: " ++ String.mk cs)
      else .ok ⟨allDice⟩

/-! ### Custom-definition loader (`loadSingleFancyDiceFile` and helpers) -/

/-- `strings.HasPrefix(line, "#")`. -/
def startsWithHash : List Char → Bool
  | '#' :: _ => true
  | _ => false

/-- The skip condition for a (trimmed) line: empty or a comment. -/
def isSkippable (line : List Char) : Bool :=
  line.isEmpty || startsWithHash line

/-- Go: `parseFancyDiceLine(line string, defaultValue int)`. -/
def parseFancyDiceLine (line : List Char) (defaultValue : Int) :
    Except String FancyDieValue :=
  match splitComma line with
  | [p] =>
    let name := trimChars p
    if name.isEmpty then .error "empty name"
    else .ok ⟨String.mk name, defaultValue⟩
  | [p, q] =>
    let name := trimChars p
    let valueStr := trimChars q
    if name.isEmpty then .error "empty name"
    else
      match goAtoi valueStr with
      | some value => .ok ⟨String.mk name, value⟩
      | none => .error ("invalid value '" ++ String.mk valueStr ++ "': must be an integer")
  | _ => .error "invalid format: expected 'name' or 'name, value'"

/-- The scanner loop of `loadSingleFancyDiceFile`: `num` is the number of
physical lines already read (`lineNum` is `num + 1` inside the body),
`values` the accepted values so far.  Note the parse default is
`len(values) + 1` — the 1-based position among the valid lines — while the
physical `lineNum` is used only in error messages. -/
def loadFancyLinesAux : List (List Char) → Nat → List FancyDieValue →
    Except String (List FancyDieValue)
  | [], _, values => .ok values
  | l :: rest, num, values =>
    let line := trimChars l
    if isSkippable line then loadFancyLinesAux rest (num + 1) values
    else
      match parseFancyDiceLine line ((values.length : Int) + 1) with
      | .ok value => loadFancyLinesAux rest (num + 1) (values ++ [value])
      | .error e => .error ("line " ++ toString (num + 1) ++ ": " ++ e)

/-- Go: `loadSingleFancyDiceFile(filename string) error`, over the file's
lines (the `os.Open`/`bufio.Scanner` plumbing is outside the model).
Returns the registry key (`"f<len>"`) and value list it would store. -/
def loadSingleFancyDiceFile (lines : List (List Char)) :
    Except String (String × List FancyDieValue) :=
  match loadFancyLinesAux lines 0 [] with
  | .error e => .error e
  | .ok values =>
    if values.isEmpty then .error "file contains no valid fancy dice values"
    else .ok ("f" ++ toString values.length, values)

/-- The valid (non-blank, non-comment) lines of a file, trimmed — the lines
that produce `FancyDieValue`s, in order. -/
def validLines (lines : List (List Char)) : List (List Char) :=
  (lines.map trimChars).filter (fun l => !isSkippable l)

/-! ## Claims -/

/-- C1, counterexample.  The claim says an over-capacity exclusive request
(`n > k`) makes *roll* fail with a `CapacityError` and return no roll
result.  In the code the check happens at *parse* time: `"7D6"` never
reaches `Roll` (parsing fails), and `Roll` itself cannot fail — on a
directly constructed sequence of 7 exclusive d6 dice it returns an ordinary
`RollResult` (with no outcomes for the run) instead of failing. -/
theorem C1_counterexample :
    parseDice fancyDiceValues "7D6" =
      .error "cannot roll 7 exclusive dice with only 6 sides" ∧
    DiceSet.Roll fancyDiceValues ⟨List.replicate 7 ⟨1006⟩⟩ [] = ⟨[], [], 0⟩ :=
  ⟨rfl, rfl⟩

/-- C1, amended.  For an exclusive token whose count `n` exceeds its
capacity `k` (the die's sides for `D`, the registry value-list length for
`F`), the *parser* fails with an error naming `n` and `k`; no die-spec
sequence is produced, so no roll happens. -/
theorem C1_amended_capacity_at_parse (countStr sidesStr : List Char) (n k : Int)
    (hc : atoiDigits countStr = some n) (hs : atoiDigits sidesStr = some k)
    (hne : countStr.isEmpty = false) (hk : 0 < k) (hkn : k < n) :
    parseExclusiveRegularDice countStr sidesStr =
      .error ("cannot roll " ++ toString n ++ " exclusive dice with only " ++
        toString k ++ " sides") ∧
    ∀ (reg : Registry) (typeStr : List Char) (values : List FancyDieValue),
      lookupReg reg ("f" ++ String.mk typeStr) = some values →
      (values.length : Int) < n →
      parseExclusiveFancyDice reg countStr typeStr =
        .error ("cannot roll " ++ toString n ++ " exclusive " ++
          ("f" ++ String.mk typeStr) ++ " dice with only " ++
          toString values.length ++ " values") := by
  have hn : (0 : Int) < n := lt_trans hk hkn
  have hpc : parseCount countStr = some n := by
    simp [parseCount, hne, hc, if_neg (not_le.mpr hn)]
  refine ⟨?_, ?_⟩
  · simp [parseExclusiveRegularDice, hpc, hs, if_neg (not_le.mpr hk), if_pos hkn]
  · intro reg typeStr values hv hlen
    simp [parseExclusiveFancyDice, hpc, hv, if_pos hlen]

/-- C1, witness for the amended theorem at `7D6` and `7F4`. -/
theorem C1_witness :
    parseExclusiveRegularDice ['7'] ['6'] =
      .error "cannot roll 7 exclusive dice with only 6 sides" ∧
    parseExclusiveFancyDice fancyDiceValues ['7'] ['4'] =
      .error "cannot roll 7 exclusive f4 dice with only 4 values" :=
  ⟨(C1_amended_capacity_at_parse ['7'] ['6'] 7 6 (by decide) (by decide) (by decide)
      (by decide) (by decide)).1,
   (C1_amended_capacity_at_parse ['7'] ['6'] 7 6 (by decide) (by decide) (by decide)
      (by decide) (by decide)).2 fancyDiceValues ['4']
      [⟨"♠", 4⟩, ⟨"♥", 3⟩, ⟨"♦", 2⟩, ⟨"♣", 1⟩] rfl (by decide)⟩

/-- C2, counterexample.  The claim says a symbolic token with an unknown
kind parses successfully (registry not consulted at parse time) and only
the roll fails.  In the code the registry *is* consulted by
`parseFancyDice`: `"f99"` already fails to parse. -/
theorem C2_counterexample :
    parseDice fancyDiceValues "f99" = .error "unsupported fancy dice type: f99" :=
  rfl

/-- C2, amended.  Symbolic kinds are validated at parse time: with any
registry in which the kind is absent, `parseFancyDice` fails with an error
naming the kind.  Rolling never raises an unknown-kind error: a directly
constructed symbolic die whose kind is absent rolls `0` and consumes no
randomness. -/
theorem C2_amended_kind_checked_at_parse (reg : Registry) (countStr typeStr : List Char)
    (c : Int) (hc : parseCount countStr = some c)
    (hk : lookupReg reg ("f" ++ String.mk typeStr) = none) :
    parseFancyDice reg countStr typeStr =
      .error ("unsupported fancy dice type: " ++ ("f" ++ String.mk typeStr)) ∧
    ∀ (d : Die) (rs : List Nat), d.Sides < 0 →
      lookupReg reg ("f" ++ toString (-d.Sides)) = none →
      Die.Roll reg d rs = (0, rs) := by
  refine ⟨by simp [parseFancyDice, hc, hk], ?_⟩
  intro d rs hneg hnone
  simp only [Die.Roll, if_pos (le_of_lt hneg), if_pos hneg, hnone]

/-- C2, witness for the amended theorem at `f99` over the built-in
registry. -/
theorem C2_witness :
    parseFancyDice fancyDiceValues [] ['9', '9'] =
      .error "unsupported fancy dice type: f99" ∧
    Die.Roll fancyDiceValues ⟨-99⟩ [5] = (0, [5]) :=
  ⟨(C2_amended_kind_checked_at_parse fancyDiceValues [] ['9', '9'] 1 rfl
      (by decide)).1,
   (C2_amended_kind_checked_at_parse fancyDiceValues [] ['9', '9'] 1 rfl
      (by decide)).2 ⟨-99⟩ [5] (by decide) (by decide)⟩

/-- C3, code-bug evaluation.  `"4D6,4D6"` is accepted by the parser (each
token passes the per-token capacity check), expanding to 8 dice, but
rolling returns 0 outcomes: `groupExclusiveDice` merges the two consecutive
exclusive runs into one 8-die group of capacity 6, for which
`selectWithoutReplacement 6 8` silently returns nothing.  The claim
(`len(outcomes) == sum(count_i)` for every accepted notation) requires 8
outcomes here. -/
theorem C3_code_bug_eval :
    parseDice fancyDiceValues "4D6,4D6" = .ok ⟨List.replicate 8 ⟨1006⟩⟩ ∧
    (⟨List.replicate 8 ⟨1006⟩⟩ : DiceSet).Dice.length = 8 ∧
    ∀ rs : List Nat,
      (DiceSet.Roll fancyDiceValues ⟨List.replicate 8 ⟨1006⟩⟩ rs).DieRolls.length = 0 :=
  ⟨rfl, rfl, fun rs => rfl⟩

/-- C8: a standard die with `Sides > 0` rolls a value in `[1, Sides]`
(under the RNG contract that `rand.IntN(Sides)` returns a value below
`Sides`, i.e. that the consumed oracle entry is below the bound). -/
theorem C8_standard_range (reg : Registry) (d : Die) (rs : List Nat)
    (h : 0 < d.Sides) (hr : (rs.headI : Int) < d.Sides) :
    1 ≤ (Die.Roll reg d rs).1 ∧ (Die.Roll reg d rs).1 ≤ d.Sides := by
  simp only [Die.Roll, if_neg (by omega : ¬ d.Sides ≤ 0)]
  constructor <;> omega

/-- C8, witness: a d6 with oracle value 3 rolls 4 ∈ [1, 6]. -/
theorem C8_witness :
    1 ≤ (Die.Roll [] ⟨6⟩ [3]).1 ∧ (Die.Roll [] ⟨6⟩ [3]).1 ≤ (6 : Int) :=
  C8_standard_range [] ⟨6⟩ [3] (by decide) (by decide)

/-- C10: `Die.Roll` is total and never panics — over any registry whose
value lists are non-empty (an invariant of the real registry: built-ins are
non-empty and the loader rejects empty files) the checked model always
returns a value; a die with `Sides = 0`, or negative `Sides` with no
matching registered fancy kind, rolls `0` instead of failing. -/
theorem C10_roll_total_defensive (reg : Registry) (d : Die) (r : Nat)
    (hwf : ∀ p ∈ reg, p.2 ≠ []) :
    (Die.RollChecked reg d r).isSome = true ∧
    (d.Sides = 0 → Die.RollChecked reg d r = some 0) ∧
    (d.Sides < 0 → lookupReg reg ("f" ++ toString (-d.Sides)) = none →
      Die.RollChecked reg d r = some 0) := by
  refine ⟨?_, ?_, ?_⟩
  · by_cases h0 : d.Sides ≤ 0
    · by_cases hneg : d.Sides < 0
      · rcases hl : lookupReg reg ("f" ++ toString (-d.Sides)) with _ | values
        · simp [Die.RollChecked, h0, hneg, hl]
        · have hmem : ∃ p ∈ reg, p.2 = values := by
            rcases hf : reg.find? (fun p => p.1 == ("f" ++ toString (-d.Sides))) with _ | p
            · simp [lookupReg, hf] at hl
            · exact ⟨p, List.mem_of_find?_eq_some hf, by simpa [lookupReg, hf] using hl⟩
          rcases hmem with ⟨p, hp, hpv⟩
          have hv : values ≠ [] := hpv ▸ hwf p hp
          have hlen : 0 < values.length := List.length_pos.mpr hv
          simp only [Die.RollChecked, if_pos h0, if_pos hneg, hl, intN]
          rw [if_neg (by exact_mod_cast Nat.not_le.mpr hlen)]
          simp
      · simp [Die.RollChecked, h0, hneg]
    · simp [Die.RollChecked, if_neg h0, intN]
  · intro h0
    simp [Die.RollChecked, h0]
  · intro hneg hnone
    simp only [Die.RollChecked, if_pos (le_of_lt hneg), if_pos hneg, hnone]

/-- C10, witness: a zero-sided die and an unknown fancy die both roll 0. -/
theorem C10_witness :
    Die.RollChecked fancyDiceValues ⟨0⟩ 0 = some 0 ∧
    Die.RollChecked fancyDiceValues ⟨-999⟩ 5 = some 0 ∧
    (Die.RollChecked fancyDiceValues ⟨-999⟩ 5).isSome = true :=
  ⟨(C10_roll_total_defensive fancyDiceValues ⟨0⟩ 0 (by decide)).2.1 rfl,
   (C10_roll_total_defensive fancyDiceValues ⟨-999⟩ 5 (by decide)).2.2
     (by decide) (by decide),
   (C10_roll_total_defensive fancyDiceValues ⟨-999⟩ 5 (by decide)).1⟩

/-! ### Lock-step and total-sum invariants of `DiceSet.Roll` (C9, C6) -/

theorem rollExclusiveDie_result (reg : Registry) (f : Bool) (die : Die) (value : Int) :
    (rollExclusiveDie reg f die value).1.Result = value := by
  cases f <;> rfl

theorem rollPlainDie_result (reg : Registry) (die : Die) (roll : Int) :
    (rollPlainDie reg die roll).1.Result = roll := by
  simp only [rollPlainDie]
  split
  · split
    · split <;> rfl
    · rfl
  · rfl

theorem rollExclusiveLoop_rolls (reg : Registry) (f : Bool) (dice : List Die) :
    ∀ l, (rollExclusiveLoop reg f dice l).rolls =
      (rollExclusiveLoop reg f dice l).dieRolls.map DieRoll.Result
  | [] => rfl
  | (i, v) :: rest => by
    simp [rollExclusiveLoop, rollExclusiveDie_result,
      rollExclusiveLoop_rolls reg f dice rest]

theorem rollPlainLoop_rolls (reg : Registry) :
    ∀ (dice : List Die) (rs : List Nat),
      (rollPlainLoop reg dice rs).1.rolls =
        (rollPlainLoop reg dice rs).1.dieRolls.map DieRoll.Result
  | [], _ => rfl
  | die :: rest, rs => by
    simp [rollPlainLoop, rollPlainDie_result,
      rollPlainLoop_rolls reg rest (Die.Roll reg die rs).2]

theorem rollGroup_rolls (reg : Registry) (g : ExclusiveGroup) (rs : List Nat) :
    (rollGroup reg g rs).1.rolls = (rollGroup reg g rs).1.dieRolls.map DieRoll.Result := by
  unfold rollGroup
  split
  · exact rollExclusiveLoop_rolls reg g.IsFancy g.Dice _
  · exact rollPlainLoop_rolls reg g.Dice rs

theorem rollGroups_rolls (reg : Registry) :
    ∀ (gs : List ExclusiveGroup) (rs : List Nat),
      (rollGroups reg gs rs).1.rolls =
        (rollGroups reg gs rs).1.dieRolls.map DieRoll.Result
  | [], _ => rfl
  | g :: gs, rs => by
    simp [rollGroups, rollGroup_rolls reg g rs,
      rollGroups_rolls reg gs (rollGroup reg g rs).2]

/-- C9: for every dice set (and any registry and randomness),
`IndividualRolls` is exactly the `Result` projection of `DieRolls` — the two
output sequences have the same length and agree index by index. -/
theorem C9_lockstep (reg : Registry) (ds : DiceSet) (rs : List Nat) :
    (DiceSet.Roll reg ds rs).IndividualRolls =
      (DiceSet.Roll reg ds rs).DieRolls.map DieRoll.Result ∧
    (DiceSet.Roll reg ds rs).IndividualRolls.length =
      (DiceSet.Roll reg ds rs).DieRolls.length := by
  have h := rollGroups_rolls reg (groupExclusiveDice ds) rs
  refine ⟨h, ?_⟩
  rw [show (DiceSet.Roll reg ds rs).IndividualRolls =
    (DiceSet.Roll reg ds rs).DieRolls.map DieRoll.Result from h]
  simp

theorem contribution_rollPlainDie (reg : Registry) (die : Die) (roll : Int) :
    contribution reg (rollPlainDie reg die roll).1 = (rollPlainDie reg die roll).2 := by
  by_cases h : die.Sides < 0
  · rcases hl : lookupReg reg ("f" ++ toString (-die.Sides)) with _ | values
    · simp [rollPlainDie, contribution, h, hl]
    · by_cases hv : 0 < roll ∧ roll ≤ (values.length : Int)
      · simp [rollPlainDie, contribution, h, hl, hv]
      · simp [rollPlainDie, contribution, h, hl, hv]
  · simp [rollPlainDie, contribution, h]

theorem contribution_rollExclusiveDie_fancy (reg : Registry) (die : Die) (value : Int)
    (h : die.Sides < -1000) :
    contribution reg (rollExclusiveDie reg true die value).1 =
      (rollExclusiveDie reg true die value).2 := by
  have hneg : die.Sides + 1000 < 0 := by omega
  rcases hl : lookupReg reg ("f" ++ toString (-1000 + -die.Sides)) with _ | values
  · simp [rollExclusiveDie, contribution, hneg, hl, neg_neg]
  · by_cases hv : 0 < value ∧ value ≤ (values.length : Int)
    · simp [rollExclusiveDie, contribution, hneg, hl, hv, neg_neg]
    · simp [rollExclusiveDie, contribution, hneg, hl, hv, neg_neg]

theorem contribution_rollExclusiveDie_regular (reg : Registry) (die : Die) (value : Int)
    (h : die.Sides > 1000) :
    contribution reg (rollExclusiveDie reg false die value).1 =
      (rollExclusiveDie reg false die value).2 := by
  have hpos : ¬ die.Sides - 1000 < 0 := by omega
  simp [rollExclusiveDie, contribution, hpos]

/-- All dice in a group produced by `groupExclusiveDice` share the group's
classification. -/
def HomogGroup (g : ExclusiveGroup) : Prop :=
  ∀ d ∈ g.Dice, classify d = (g.IsExclusive, g.IsFancy)

theorem groupStep_invariant (acc : List ExclusiveGroup × ExclusiveGroup) (die : Die)
    (h1 : ∀ g ∈ acc.1, HomogGroup g) (h2 : HomogGroup acc.2) :
    (∀ g ∈ (groupStep acc die).1, HomogGroup g) ∧ HomogGroup (groupStep acc die).2 := by
  unfold groupStep
  by_cases hc : (acc.2.Dice.isEmpty || (acc.2.IsExclusive == (classify die).1 &&
      acc.2.IsFancy == (classify die).2)) = true
  · rw [if_pos hc]
    refine ⟨h1, ?_⟩
    rcases Bool.or_eq_true_iff.mp hc with hemp | hflag
    · intro d hd
      have : acc.2.Dice = [] := List.isEmpty_iff.mp hemp
      simp [this] at hd
      simp [hd]
    · have hex : acc.2.IsExclusive = (classify die).1 :=
        beq_iff_eq.mp (Bool.and_eq_true_iff.mp hflag).1
      have hfa : acc.2.IsFancy = (classify die).2 :=
        beq_iff_eq.mp (Bool.and_eq_true_iff.mp hflag).2
      intro d hd
      simp only [List.mem_append, List.mem_singleton] at hd
      rcases hd with hd | hd
      · have := h2 d hd
        simp only [this, ← hex, ← hfa]
      · simp [hd]
  · rw [if_neg hc]
    refine ⟨?_, ?_⟩
    · intro g hg
      simp only [List.mem_append, List.mem_singleton] at hg
      rcases hg with hg | hg
      · exact h1 g hg
      · exact hg ▸ h2
    · intro d hd
      simp only [List.mem_singleton] at hd
      simp [hd]

theorem foldl_groupStep_invariant (dice : List Die) :
    ∀ (acc : List ExclusiveGroup × ExclusiveGroup),
      (∀ g ∈ acc.1, HomogGroup g) → HomogGroup acc.2 →
      (∀ g ∈ (dice.foldl groupStep acc).1, HomogGroup g) ∧
        HomogGroup (dice.foldl groupStep acc).2 := by
  induction dice with
  | nil => intro acc h1 h2; exact ⟨h1, h2⟩
  | cons die rest ih =>
    intro acc h1 h2
    have h := groupStep_invariant acc die h1 h2
    exact ih (groupStep acc die) h.1 h.2

theorem groupExclusiveDice_homog (ds : DiceSet) :
    ∀ g ∈ groupExclusiveDice ds, HomogGroup g := by
  have h := foldl_groupStep_invariant ds.Dice ([], ⟨[], false, false⟩)
    (by intro g hg; simp at hg) (by intro d hd; simp at hd)
  intro g hg
  have hg' : g ∈ (if (List.foldl groupStep ([], ⟨[], false, false⟩) ds.Dice).2.Dice.isEmpty
      then (List.foldl groupStep ([], ⟨[], false, false⟩) ds.Dice).1
      else (List.foldl groupStep ([], ⟨[], false, false⟩) ds.Dice).1 ++
        [(List.foldl groupStep ([], ⟨[], false, false⟩) ds.Dice).2]) := hg
  split at hg'
  · exact h.1 g hg'
  · simp only [List.mem_append, List.mem_singleton] at hg'
    rcases hg' with hg' | hg'
    · exact h.1 g hg'
    · exact hg' ▸ h.2

theorem selectFromSlice_length_le :
    ∀ (n : Nat) (values : List Int) (rs : List Nat),
      (selectFromSlice values n rs).1.length ≤ n := by
  intro n
  induction n using Nat.strong_induction_on with
  | _ n ih =>
    intro values rs
    match n, values with
    | 0, _ => simp [selectFromSlice]
    | _ + 1, [] => simp [selectFromSlice]
    | 1, v :: vs => simp [selectFromSlice]
    | m + 2, v :: vs =>
      have := ih (m + 1) (by omega) (swapFront (v :: vs) rs.headI).tail rs.tail
      simp only [selectFromSlice, List.length_cons]
      omega

theorem selectWithoutReplacement_length_le (k n : Int) (rs : List Nat) :
    (selectWithoutReplacement k n rs).1.length ≤ n.toNat := by
  unfold selectWithoutReplacement
  split
  · simp
  · exact selectFromSlice_length_le _ _ _

theorem rollExclusiveGroup_length_le (reg : Registry) (g : ExclusiveGroup) (rs : List Nat) :
    (rollExclusiveGroup reg g rs).1.length ≤ g.Dice.length := by
  simp only [rollExclusiveGroup]
  split
  · simp
  · split
    · split
      · exact le_trans (selectWithoutReplacement_length_le _ _ _) (by simp)
      · simp
    · exact le_trans (selectWithoutReplacement_length_le _ _ _) (by simp)

theorem classify_exclusive_fancy {d : Die} (h : classify d = (true, true)) :
    d.Sides < -1000 := by
  unfold classify at h
  split at h
  · simp at h
  · split at h
    · assumption
    · simp at h

theorem classify_exclusive_regular {d : Die} (h : classify d = (true, false)) :
    d.Sides > 1000 := by
  unfold classify at h
  split at h
  · assumption
  · split at h
    · simp at h
    · simp at h

theorem rollExclusiveLoop_total (reg : Registry) (f : Bool) (dice : List Die) :
    ∀ l : List (Nat × Int),
      (∀ iv ∈ l, contribution reg
          (rollExclusiveDie reg f (dice.getD iv.1 default) iv.2).1 =
        (rollExclusiveDie reg f (dice.getD iv.1 default) iv.2).2) →
      (rollExclusiveLoop reg f dice l).total =
        ((rollExclusiveLoop reg f dice l).dieRolls.map (contribution reg)).sum
  | [], _ => rfl
  | (i, v) :: rest, h => by
    have hh := h (i, v) (List.mem_cons_self _ _)
    have ht := rollExclusiveLoop_total reg f dice rest
      (fun iv hiv => h iv (List.mem_cons_of_mem _ hiv))
    simp only [rollExclusiveLoop, List.map_cons, List.sum_cons]
    rw [ht, hh]

theorem rollPlainLoop_total (reg : Registry) :
    ∀ (dice : List Die) (rs : List Nat),
      (rollPlainLoop reg dice rs).1.total =
        ((rollPlainLoop reg dice rs).1.dieRolls.map (contribution reg)).sum
  | [], _ => rfl
  | die :: rest, rs => by
    simp only [rollPlainLoop, List.map_cons, List.sum_cons]
    rw [rollPlainLoop_total reg rest (Die.Roll reg die rs).2,
      contribution_rollPlainDie reg die (Die.Roll reg die rs).1]

theorem mem_of_mem_enum {α : Type} {l : List α} {iv : Nat × α} (h : iv ∈ l.enum) :
    iv.1 < l.length := by
  rw [List.enum_eq_zip_range] at h
  have := List.of_mem_zip (by exact h)
  exact List.mem_range.mp this.1

theorem rollGroup_total (reg : Registry) (g : ExclusiveGroup) (rs : List Nat)
    (hg : HomogGroup g) :
    (rollGroup reg g rs).1.total =
      ((rollGroup reg g rs).1.dieRolls.map (contribution reg)).sum := by
  unfold rollGroup
  split
  case isTrue hex =>
    apply rollExclusiveLoop_total
    intro iv hiv
    have hlen : iv.1 < g.Dice.length :=
      lt_of_lt_of_le (mem_of_mem_enum hiv) (rollExclusiveGroup_length_le reg g rs)
    have hmem : g.Dice.getD iv.1 default ∈ g.Dice := by
      rw [List.getD_eq_getElem _ _ hlen]
      exact List.getElem_mem hlen
    have hcl := hg _ hmem
    rw [hex] at hcl
    cases hfan : g.IsFancy with
    | true =>
      rw [hfan] at hcl
      exact contribution_rollExclusiveDie_fancy reg _ iv.2 (classify_exclusive_fancy hcl)
    | false =>
      rw [hfan] at hcl
      exact contribution_rollExclusiveDie_regular reg _ iv.2 (classify_exclusive_regular hcl)
  case isFalse =>
    apply rollPlainLoop_total

theorem rollGroups_total (reg : Registry) :
    ∀ (gs : List ExclusiveGroup) (rs : List Nat),
      (∀ g ∈ gs, HomogGroup g) →
      (rollGroups reg gs rs).1.total =
        ((rollGroups reg gs rs).1.dieRolls.map (contribution reg)).sum
  | [], _, _ => rfl
  | g :: gs, rs, h => by
    simp only [rollGroups, List.map_append, List.sum_append]
    rw [rollGroups_total reg gs (rollGroup reg g rs).2
        (fun g' hg' => h g' (List.mem_cons_of_mem _ hg')),
      rollGroup_total reg g rs (h g (List.mem_cons_self _ _))]

/-- C6: for every dice set (and any registry and randomness), the returned
`Total` equals the sum over the returned outcomes of each outcome's scoring
contribution — face value for standard dice, resolved score for symbolic
dice — i.e. the total is derivable from the outcomes alone, with no hidden
state. -/
theorem C6_total_is_sum_of_contributions (reg : Registry) (ds : DiceSet) (rs : List Nat) :
    (DiceSet.Roll reg ds rs).Total =
      ((DiceSet.Roll reg ds rs).DieRolls.map (contribution reg)).sum :=
  rollGroups_total reg (groupExclusiveDice ds) rs (groupExclusiveDice_homog ds)

/-! ### The without-replacement sampler: correctness and uniformity (C4, C5) -/



@[simp] theorem length_swapFront (l : List Int) (i : Nat) :
    (swapFront l i).length = l.length := by
  simp [swapFront]

theorem swapFront_zero (l : List Int) : swapFront l 0 = l := by
  cases l <;> simp [swapFront]

theorem swapFront_cons_succ (x : Int) (t : List Int) (j : Nat) :
    swapFront (x :: t) (j + 1) = t.getD j 0 :: t.set j x := by
  simp [swapFront]

theorem set_perm : ∀ (t : List Int) (j : Nat) (x : Int), j < t.length →
    (t.getD j 0 :: t.set j x).Perm (x :: t)
  | a :: t, 0, x, _ => by
    simpa using List.Perm.swap x a t
  | a :: t, j + 1, x, h => by
    have ih := set_perm t j x (by simpa using h)
    have h1 : ((a :: t).set (j + 1) x) = a :: t.set j x := by simp
    rw [h1]
    exact ((List.Perm.swap a (t.getD j 0) (t.set j x)).trans (ih.cons a)).trans
      (List.Perm.swap x a t)

theorem swapFront_perm : ∀ (l : List Int) (i : Nat), i < l.length →
    (swapFront l i).Perm l
  | l, 0, _ => by rw [swapFront_zero]
  | x :: t, j + 1, h => by
    rw [swapFront_cons_succ]
    exact set_perm t j x (by simpa using h)

theorem headI_swapFront (l : List Int) (i : Nat) (hne : l ≠ []) (h : i < l.length) :
    (swapFront l i).headI = l.getD i 0 := by
  match l, i with
  | x :: t, 0 => simp [swapFront_zero]
  | x :: t, j + 1 => rw [swapFront_cons_succ]; simp

theorem swapFront_ne_nil (l : List Int) (i : Nat) (hne : l ≠ []) :
    swapFront l i ≠ [] := by
  intro h
  apply hne
  have := length_swapFront l i
  rw [h] at this
  exact List.length_eq_zero.mp this.symm

theorem cons_headI_tail : ∀ (l : List Int), l ≠ [] → l.headI :: l.tail = l
  | [], h => absurd rfl h
  | x :: t, _ => rfl

theorem mem_streams_succ (k n : Nat) (rs : List Nat) :
    rs ∈ streams k (n + 1) ↔
      ∃ r, r < k ∧ ∃ rs', rs' ∈ streams (k - 1) n ∧ rs = r :: rs' := by
  simp [streams, List.mem_flatMap, List.mem_range, List.mem_map]
  constructor
  · rintro ⟨r, hr, rs', hrs', rfl⟩
    exact ⟨r, hr, rs', hrs', rfl⟩
  · rintro ⟨r, hr, rs', hrs', rfl⟩
    exact ⟨r, hr, rs', hrs', rfl⟩

theorem mem_streams_zero (rs : List Nat) (k : Nat) :
    rs ∈ streams k 0 ↔ rs = [] := by
  simp [streams]

theorem selectFromSlice_spec :
    ∀ (n : Nat) (values : List Int) (rs : List Nat),
      n ≤ values.length → rs ∈ streams values.length n →
      (selectFromSlice values n rs).1.length = n ∧
      (values.Nodup → (selectFromSlice values n rs).1.Nodup) ∧
      (∀ x ∈ (selectFromSlice values n rs).1, x ∈ values) := by
  intro n
  induction n using Nat.strong_induction_on with
  | _ n ih =>
    intro values rs hn hrs
    match n, values with
    | 0, _ =>
      simp [selectFromSlice]
    | m + 1, [] =>
      simp at hn
    | 1, v :: vs =>
      rcases (mem_streams_succ _ 0 rs).mp hrs with ⟨r, hr, rs', hrs', rfl⟩
      have hr' : r < (v :: vs).length := hr
      refine ⟨rfl, fun _ => List.nodup_singleton _, ?_⟩
      intro x hx
      simp only [selectFromSlice, List.headI_cons, List.mem_singleton] at hx
      rw [hx, List.getD_eq_getElem _ _ hr']
      exact List.getElem_mem hr'
    | m + 2, v :: vs =>
      rcases (mem_streams_succ _ (m + 1) rs).mp hrs with ⟨r, hr, rs', hrs', rfl⟩
      have hrlen : r < (v :: vs).length := hr
      set w := swapFront (v :: vs) r with hw
      have hperm : w.Perm (v :: vs) := swapFront_perm _ r hrlen
      have hwne : w ≠ [] := swapFront_ne_nil _ r (by simp)
      have hwlen : w.length = (v :: vs).length := length_swapFront _ r
      have htail : w.tail.length = (v :: vs).length - 1 := by
        rw [← hwlen]
        cases hww : w with
        | nil => exact absurd hww hwne
        | cons a t => simp
      have hm1 : m + 1 ≤ w.tail.length := by omega
      have hrs'' : rs' ∈ streams w.tail.length (m + 1) := by
        rw [htail]; exact hrs'
      have IH := ih (m + 1) (by omega) w.tail rs' hm1 hrs''
      have hsel : selectFromSlice (v :: vs) (m + 2) (r :: rs') =
          (w.headI :: (selectFromSlice w.tail (m + 1) rs').1,
           (selectFromSlice w.tail (m + 1) rs').2) := by
        simp [selectFromSlice, hw]
      rw [hsel]
      refine ⟨by simp [IH.1], ?_, ?_⟩
      · intro hnd
        have hwnd : w.Nodup := (hperm.nodup_iff).mpr hnd
        have hcons : (w.headI :: w.tail).Nodup := by
          rw [cons_headI_tail w hwne]; exact hwnd
        have hhead : w.headI ∉ w.tail := (List.nodup_cons.mp hcons).1
        have htnd : w.tail.Nodup := (List.nodup_cons.mp hcons).2
        refine List.nodup_cons.mpr ⟨?_, IH.2.1 htnd⟩
        intro hmem
        exact hhead (IH.2.2 _ hmem)
      · intro x hx
        have hxw : x ∈ w := by
          rcases List.mem_cons.mp hx with hx | hx
          · rw [← cons_headI_tail w hwne]
            exact hx ▸ List.mem_cons_self _ _
          · rw [← cons_headI_tail w hwne]
            exact List.mem_cons_of_mem _ (IH.2.2 _ hx)
        exact hperm.mem_iff.mp hxw

theorem initialValues_facts (k : Nat) :
    ((List.range k).map (fun i => (Nat.cast i + 1 : Int))).length = k ∧
    ((List.range k).map (fun i => (Nat.cast i + 1 : Int))).Nodup ∧
    (∀ x ∈ (List.range k).map (fun i => (Nat.cast i + 1 : Int)), 1 ≤ x ∧ x ≤ (k : Int)) := by
  refine ⟨by simp, ?_, ?_⟩
  · refine List.Nodup.map ?_ (List.nodup_range k)
    intro a b hab
    have h : (a : Int) + 1 = (b : Int) + 1 := hab
    omega
  · intro x hx
    simp only [List.mem_map, List.mem_range] at hx
    rcases hx with ⟨i, hi, rfl⟩
    omega

/-- C4: for integers k, n with 0 < n <= k, the without-replacement sampler
returns an ordered sequence of exactly n pairwise-distinct integers in
[1, k] (for every admissible random oracle stream, i.e. every possible
sequence of rand.IntN results). -/
theorem C4_sampler_spec (k n : Int) (rs : List Nat)
    (hn : 0 < n) (hnk : n ≤ k) (hrs : rs ∈ streams k.toNat n.toNat) :
    (selectWithoutReplacement k n rs).1.length = n.toNat ∧
    (selectWithoutReplacement k n rs).1.Nodup ∧
    ∀ x ∈ (selectWithoutReplacement k n rs).1, 1 ≤ x ∧ x ≤ k := by
  have hguard : ¬ (n ≤ 0 ∨ k ≤ 0 ∨ k < n) := by omega
  have hv := initialValues_facts k.toNat
  have hlen : ((List.range k.toNat).map (fun i => (Nat.cast i + 1 : Int))).length = k.toNat :=
    hv.1
  have hspec := selectFromSlice_spec n.toNat
    ((List.range k.toNat).map (fun i => (Nat.cast i + 1 : Int))) rs
    (by rw [hlen]; omega) (by rw [hlen]; exact hrs)
  rw [show selectWithoutReplacement k n rs =
      selectFromSlice ((List.range k.toNat).map (fun i => (Nat.cast i + 1 : Int))) n.toNat rs by
    simp [selectWithoutReplacement, hguard]]
  refine ⟨hspec.1, hspec.2.1 hv.2.1, ?_⟩
  intro x hx
  have hxk : x ≤ (k.toNat : Int) := (hv.2.2 x (hspec.2.2 x hx)).2
  have hcast : (k.toNat : Int) = k := Int.toNat_of_nonneg (by omega)
  exact ⟨(hv.2.2 x (hspec.2.2 x hx)).1, hcast ▸ hxk⟩

/-- C4, witness at k = 3, n = 2 with the stream [1, 0]. -/
theorem C4_witness :
    (selectWithoutReplacement 3 2 [1, 0]).1.length = 2 ∧
    (selectWithoutReplacement 3 2 [1, 0]).1.Nodup ∧
    (∀ x ∈ (selectWithoutReplacement 3 2 [1, 0]).1, 1 ≤ x ∧ x ≤ (3 : Int)) :=
  C4_sampler_spec 3 2 [1, 0] (by decide) (by decide) (by decide)





/-- Number of occurrences of the outcome `o` in a list of outcomes. -/
def occCount (o : List Int) (L : List (List Int)) : Nat :=
  L.countP (fun out => out == o)

/-- Number of occurrences of the value `v` in a list of values. -/
def occInt (v : Int) (l : List Int) : Nat :=
  l.countP (fun x => x == v)

theorem occCount_nil (o : List Int) : occCount o [] = 0 := rfl

theorem occCount_flatMap {α : Type} (o : List Int) (l : List α) (f : α → List (List Int)) :
    occCount o (l.flatMap f) = (l.map (fun a => occCount o (f a))).sum := by
  induction l with
  | nil => rfl
  | cons x t ih =>
    simp only [List.flatMap_cons, List.map_cons, List.sum_cons, occCount] at ih ⊢
    rw [List.countP_append, ih]

theorem occCount_singleton (o out : List Int) :
    occCount o [out] = if out = o then 1 else 0 := by
  simp [occCount, List.countP_cons]

theorem occCount_map_cons_eq (v : Int) (o' : List Int) {α : Type} (L : List α)
    (g : α → List Int) :
    occCount (v :: o') (L.map (fun rs => v :: g rs)) = occCount o' (L.map g) := by
  induction L with
  | nil => rfl
  | cons rs t ih =>
    simp only [List.map_cons, occCount, List.countP_cons] at ih ⊢
    rw [ih]
    by_cases h : g rs = o'
    · simp [h]
    · simp [h]

theorem occCount_map_cons_ne (v x : Int) (hne : x ≠ v) (o' : List Int) {α : Type}
    (L : List α) (g : α → List Int) :
    occCount (v :: o') (L.map (fun rs => x :: g rs)) = 0 := by
  induction L with
  | nil => rfl
  | cons rs t ih =>
    simp only [List.map_cons, occCount, List.countP_cons] at ih ⊢
    rw [ih]
    simp [hne]

theorem occInt_eq_sum_map_ite (v : Int) (l : List Int) :
    occInt v l = (l.map (fun x => if x = v then 1 else 0)).sum := by
  induction l with
  | nil => rfl
  | cons a t ih =>
    simp only [occInt, List.countP_cons, List.map_cons, List.sum_cons] at ih ⊢
    rw [ih]
    by_cases h : a = v
    · simp [h, Nat.add_comm]
    · simp [h]

theorem occInt_eq_one (v : Int) : ∀ (l : List Int), l.Nodup → v ∈ l → occInt v l = 1
  | [], _, hv => absurd hv (List.not_mem_nil v)
  | a :: t, hnd, hv => by
    simp only [occInt, List.countP_cons]
    rcases List.mem_cons.mp hv with rfl | hvt
    · have hnotin : v ∉ t := (List.nodup_cons.mp hnd).1
      have : t.countP (fun x => x == v) = 0 := by
        rw [List.countP_eq_zero]
        intro x hx
        simp only [beq_iff_eq]
        intro hxv
        exact hnotin (hxv ▸ hx)
      simp [this]
    · have hne : a ≠ v := by
        intro h
        exact (List.nodup_cons.mp hnd).1 (h ▸ hvt)
      have := occInt_eq_one v t (List.nodup_cons.mp hnd).2 hvt
      simp only [occInt] at this
      simp [this, hne]

theorem map_getD_range : ∀ (l : List Int),
    (List.range l.length).map (fun r => l.getD r 0) = l
  | [] => rfl
  | a :: t => by
    rw [List.length_cons, List.range_succ_eq_map]
    simp only [List.map_cons, List.getD_cons_zero, List.map_map]
    have h : ((fun r => (a :: t).getD r 0) ∘ Nat.succ) = fun r => t.getD r 0 := by
      funext r
      simp
    rw [h, map_getD_range t]

theorem nodup_sum_ite_getD (values : List Int) (v : Int)
    (hnd : values.Nodup) (hv : v ∈ values) :
    ((List.range values.length).map (fun r => if values.getD r 0 = v then 1 else 0)).sum = 1 := by
  have h1 : (List.range values.length).map (fun r => if values.getD r 0 = v then 1 else 0)
      = ((List.range values.length).map (fun r => values.getD r 0)).map
          (fun x => if x = v then 1 else 0) := by
    rw [List.map_map]
    rfl
  rw [h1, map_getD_range, ← occInt_eq_sum_map_ite]
  exact occInt_eq_one v values hnd hv





theorem count_selectFromSlice :
    ∀ (n : Nat) (values o : List Int),
      values.Nodup → n ≤ values.length → o.length = n → o.Nodup →
      (∀ x ∈ o, x ∈ values) →
      occCount o ((streams values.length n).map (fun rs => (selectFromSlice values n rs).1)) = 1 := by
  intro n
  induction n using Nat.strong_induction_on with
  | _ n ih =>
    intro values o hnd hn ho hond homem
    match n, values with
    | 0, values =>
      have hoe : o = [] := List.length_eq_zero.mp ho
      subst hoe
      have h0 : streams values.length 0 = [[]] := rfl
      rw [h0]
      simp [occCount_singleton, selectFromSlice]
    | m + 1, [] =>
      simp at hn
    | 1, v₀ :: vs =>
      rcases o with _ | ⟨v, o'⟩
      · simp at ho
      have ho' : o' = [] := by
        rw [List.length_cons] at ho
        exact List.length_eq_zero.mp (by omega)
      subst ho'
      have hv : v ∈ v₀ :: vs := homem v (List.mem_cons_self _ _)
      have hstreams : streams (v₀ :: vs).length 1 =
          (List.range (v₀ :: vs).length).flatMap
            (fun r => (streams ((v₀ :: vs).length - 1) 0).map (fun rs => r :: rs)) := rfl
      rw [hstreams, List.map_flatMap, occCount_flatMap]
      have hcongr : (List.range (v₀ :: vs).length).map
          (fun r => occCount [v] (((streams ((v₀ :: vs).length - 1) 0).map
            (fun rs => r :: rs)).map (fun rs => (selectFromSlice (v₀ :: vs) 1 rs).1)))
          = (List.range (v₀ :: vs).length).map
            (fun r => if (v₀ :: vs).getD r 0 = v then 1 else 0) := by
        apply List.map_congr_left
        intro r hr
        have hmap : ((streams ((v₀ :: vs).length - 1) 0).map (fun rs => r :: rs)).map
            (fun rs => (selectFromSlice (v₀ :: vs) 1 rs).1) = [[(v₀ :: vs).getD r 0]] := by
          have h0 : streams ((v₀ :: vs).length - 1) 0 = [[]] := rfl
          rw [h0]
          simp [selectFromSlice]
        rw [hmap, occCount_singleton]
        by_cases h : (v₀ :: vs).getD r 0 = v
        · simp [h]
        · simp [h]
      rw [hcongr]
      exact nodup_sum_ite_getD (v₀ :: vs) v hnd hv
    | m + 2, v₀ :: vs =>
      rcases o with _ | ⟨v, o'⟩
      · simp at ho
      have hv : v ∈ v₀ :: vs := homem v (List.mem_cons_self _ _)
      have hstreams : streams (v₀ :: vs).length (m + 2) =
          (List.range (v₀ :: vs).length).flatMap
            (fun r => (streams ((v₀ :: vs).length - 1) (m + 1)).map (fun rs => r :: rs)) := rfl
      rw [hstreams, List.map_flatMap, occCount_flatMap]
      have hcongr : (List.range (v₀ :: vs).length).map
          (fun r => occCount (v :: o') (((streams ((v₀ :: vs).length - 1) (m + 1)).map
            (fun rs => r :: rs)).map (fun rs => (selectFromSlice (v₀ :: vs) (m + 2) rs).1)))
          = (List.range (v₀ :: vs).length).map
            (fun r => if (v₀ :: vs).getD r 0 = v then 1 else 0) := by
        apply List.map_congr_left
        intro r hr
        have hrk : r < (v₀ :: vs).length := List.mem_range.mp hr
        have hperm : (swapFront (v₀ :: vs) r).Perm (v₀ :: vs) := swapFront_perm _ r hrk
        have hwne : swapFront (v₀ :: vs) r ≠ [] := swapFront_ne_nil _ r (by simp)
        have hhead : (swapFront (v₀ :: vs) r).headI = (v₀ :: vs).getD r 0 :=
          headI_swapFront _ r (by simp) hrk
        have hmap : ((streams ((v₀ :: vs).length - 1) (m + 1)).map (fun rs => r :: rs)).map
            (fun rs => (selectFromSlice (v₀ :: vs) (m + 2) rs).1)
            = (streams ((v₀ :: vs).length - 1) (m + 1)).map
                (fun rs' => (swapFront (v₀ :: vs) r).headI ::
                  (selectFromSlice (swapFront (v₀ :: vs) r).tail (m + 1) rs').1) := by
          rw [List.map_map]
          apply List.map_congr_left
          intro rs' _
          simp [selectFromSlice]
        rw [hmap]
        by_cases h : (v₀ :: vs).getD r 0 = v
        · rw [if_pos h]
          rw [show (swapFront (v₀ :: vs) r).headI = v from hhead.trans h]
          rw [occCount_map_cons_eq]
          have hwcons : v :: (swapFront (v₀ :: vs) r).tail = swapFront (v₀ :: vs) r := by
            rw [← hhead.trans h]
            exact cons_headI_tail _ hwne
          have hwtl : (swapFront (v₀ :: vs) r).tail.length = (v₀ :: vs).length - 1 := by
            have hlen := hperm.length_eq
            rw [← hwcons] at hlen
            rw [List.length_cons] at hlen
            omega
          have hwtnd : (swapFront (v₀ :: vs) r).tail.Nodup := by
            have hwnd : (swapFront (v₀ :: vs) r).Nodup := hperm.nodup_iff.mpr hnd
            rw [← hwcons] at hwnd
            exact (List.nodup_cons.mp hwnd).2
          have hvnotin : v ∉ o' := (List.nodup_cons.mp hond).1
          have homem' : ∀ x ∈ o', x ∈ (swapFront (v₀ :: vs) r).tail := by
            intro x hx
            have hxvals : x ∈ v₀ :: vs := homem x (List.mem_cons_of_mem _ hx)
            have hxw : x ∈ swapFront (v₀ :: vs) r := hperm.mem_iff.mpr hxvals
            rw [← hwcons] at hxw
            rcases List.mem_cons.mp hxw with hxv | hxt
            · exact absurd (hxv ▸ hx) hvnotin
            · exact hxt
          have hIH := ih (m + 1) (by omega) (swapFront (v₀ :: vs) r).tail o' hwtnd
            (by rw [hwtl]; omega)
            (by rw [List.length_cons] at ho; omega)
            (List.nodup_cons.mp hond).2 homem'
          rw [hwtl] at hIH
          exact hIH
        · rw [if_neg h]
          exact occCount_map_cons_ne v _ (by rw [hhead]; exact h) o' _ _
      rw [hcongr]
      exact nodup_sum_ite_getD (v₀ :: vs) v hnd hv





theorem streams_length : ∀ (n k : Nat), (streams k n).length = k.descFactorial n
  | 0, k => by simp [streams, Nat.descFactorial]
  | n + 1, k => by
    have h : streams k (n + 1) =
        (List.range k).flatMap (fun r => (streams (k - 1) n).map (fun rs => r :: rs)) := rfl
    rw [h]
    have hlen : ∀ r : Nat, ((streams (k - 1) n).map (fun rs => r :: rs)).length =
        (streams (k - 1) n).length := fun r => List.length_map _ _
    cases k with
    | zero => simp [Nat.descFactorial]
    | succ k' =>
      have hflat : ((List.range (k' + 1)).flatMap
          (fun r => (streams (k' + 1 - 1) n).map (fun rs => r :: rs))).length =
          (k' + 1) * (streams k' n).length := by
        rw [List.length_flatMap]
        have heq : (List.range (k' + 1)).map
            (List.length ∘ fun r => (streams (k' + 1 - 1) n).map (fun rs => r :: rs)) =
            (List.range (k' + 1)).map (fun _ => (streams k' n).length) := by
          apply List.map_congr_left
          intro r _
          simp [Function.comp]
        rw [heq, List.map_const', List.sum_replicate, smul_eq_mul, List.length_range]
      rw [hflat, streams_length n k']
      exact (Nat.succ_descFactorial_succ k' n).symm





/-- C5: the sampler is uniform over ordered selections.  The elementary
outcomes of its randomness are the oracle streams (each stream is a
sequence of rand.IntN results, the i-th uniform on [0, k-i), so all
streams are equally likely); every ordered selection of n distinct values
from [1, k] is produced by exactly one of the k * (k-1) * ... * (k-n+1)
equally likely streams, hence every ordered selection has the same
probability 1 / (k descending-factorial n). -/
theorem C5_sampler_uniform (k n : Int) (o : List Int)
    (hn : 0 < n) (hnk : n ≤ k)
    (ho : o.length = n.toNat) (hond : o.Nodup)
    (homem : ∀ x ∈ o, 1 ≤ x ∧ x ≤ k) :
    occCount o ((streams k.toNat n.toNat).map
      (fun rs => (selectWithoutReplacement k n rs).1)) = 1 ∧
    (streams k.toNat n.toNat).length = k.toNat.descFactorial n.toNat := by
  have hguard : ¬ (n ≤ 0 ∨ k ≤ 0 ∨ k < n) := by omega
  have hv := initialValues_facts k.toNat
  refine ⟨?_, streams_length n.toNat k.toNat⟩
  have hmap : (streams k.toNat n.toNat).map (fun rs => (selectWithoutReplacement k n rs).1) =
      (streams ((List.range k.toNat).map (fun i => (Nat.cast i + 1 : Int))).length
        n.toNat).map (fun rs =>
          (selectFromSlice ((List.range k.toNat).map (fun i => (Nat.cast i + 1 : Int)))
            n.toNat rs).1) := by
    rw [hv.1]
    apply List.map_congr_left
    intro rs _
    simp [selectWithoutReplacement, hguard]
  rw [hmap]
  apply count_selectFromSlice n.toNat _ o hv.2.1 (by rw [hv.1]; omega) ho hond
  intro x hx
  have hb := homem x hx
  simp only [List.mem_map, List.mem_range]
  exact ⟨(x - 1).toNat, by omega, by omega⟩

/-- C5, witness at k = 3, n = 2, o = [1, 3]. -/
theorem C5_witness :
    occCount [1, 3] ((streams 3 2).map (fun rs => (selectWithoutReplacement 3 2 rs).1)) = 1 ∧
    (streams 3 2).length = Nat.descFactorial 3 2 :=
  C5_sampler_uniform 3 2 [1, 3] (by decide) (by decide) (by decide) (by decide) (by decide)



/-! ### Custom-definition loader: position-based default scores (C7) -/



theorem validLines_cons_skip (l : List Char) (rest : List (List Char))
    (h : isSkippable (trimChars l) = true) :
    validLines (l :: rest) = validLines rest := by
  simp [validLines, h]

theorem validLines_cons_keep (l : List Char) (rest : List (List Char))
    (h : isSkippable (trimChars l) = false) :
    validLines (l :: rest) = trimChars l :: validLines rest := by
  simp [validLines, h]

theorem loadFancyLinesAux_ok :
    ∀ (lines : List (List Char)) (num : Nat) (acc values : List FancyDieValue),
      loadFancyLinesAux lines num acc = .ok values →
      ∃ vs, values = acc ++ vs ∧ vs.length = (validLines lines).length ∧
        ∀ j, j < vs.length →
          parseFancyDiceLine ((validLines lines).getD j []) ((acc.length : Int) + j + 1) =
            .ok (vs.getD j default) := by
  intro lines
  induction lines with
  | nil =>
    intro num acc values h
    have hv : acc = values := by
      simpa [loadFancyLinesAux] using h
    exact ⟨[], by simp [hv], by simp [validLines], by intro j hj; simp at hj⟩
  | cons l rest ih =>
    intro num acc values h
    by_cases hskip : isSkippable (trimChars l) = true
    · have h' : loadFancyLinesAux rest (num + 1) acc = .ok values := by
        simpa [loadFancyLinesAux, hskip] using h
      rcases ih (num + 1) acc values h' with ⟨vs, hv, hlen, hparse⟩
      exact ⟨vs, hv, by rw [validLines_cons_skip l rest hskip]; exact hlen,
        by rw [validLines_cons_skip l rest hskip]; exact hparse⟩
    · have hskip' : isSkippable (trimChars l) = false := by
        revert hskip
        cases isSkippable (trimChars l) <;> simp
      rcases hp : parseFancyDiceLine (trimChars l) ((acc.length : Int) + 1) with e | value
      · rw [loadFancyLinesAux, if_neg (by rw [hskip']; simp), hp] at h
        exact absurd h (by simp)
      · rw [loadFancyLinesAux, if_neg (by rw [hskip']; simp), hp] at h
        rcases ih (num + 1) (acc ++ [value]) values h with ⟨vs', hv, hlen, hparse⟩
        refine ⟨value :: vs', by simpa using hv, ?_, ?_⟩
        · rw [validLines_cons_keep l rest hskip']
          simpa using hlen
        · intro j hj
          rw [validLines_cons_keep l rest hskip']
          cases j with
          | zero =>
            simpa using hp
          | succ j' =>
            have hj' : j' < vs'.length := by simpa using hj
            have := hparse j' hj'
            have hcast : ((acc ++ [value]).length : Int) + j' + 1 =
                (acc.length : Int) + (j' + 1) + 1 := by
              simp
              omega
            rw [hcast] at this
            simpa using this

theorem parseFancyDiceLine_onepart (line : List Char) (d : Int) (v : FancyDieValue)
    (hsp : (splitComma line).length = 1)
    (hp : parseFancyDiceLine line d = .ok v) :
    v.Value = d := by
  rcases hl : splitComma line with _ | ⟨p, ps⟩
  · rw [hl] at hsp; simp at hsp
  · rcases ps with _ | ⟨q, qs⟩
    · rw [parseFancyDiceLine, hl] at hp
      dsimp only at hp
      by_cases hname : (trimChars p).isEmpty = true
      · rw [if_pos hname] at hp
        exact absurd hp (by simp)
      · rw [if_neg hname] at hp
        have : v = ⟨String.mk (trimChars p), d⟩ := by
          have := hp
          simp at this
          exact this.symm
        rw [this]
    · rw [hl] at hsp; simp at hsp





/-- C7: when a custom-definition file loads successfully, there is one
FancyDieValue per valid (non-blank, non-comment) line, and every valid line
that omits the value part (no comma) gets score j+1 where j is its 0-based
position among the valid lines — i.e. its 1-based position among the valid
lines, not its physical line number (the physical line number is used only
in error messages). -/
theorem C7_default_score_is_position (lines : List (List Char)) (key : String) (values : List FancyDieValue)
    (h : loadSingleFancyDiceFile lines = .ok (key, values)) :
    values.length = (validLines lines).length ∧
    ∀ j, j < values.length →
      (splitComma ((validLines lines).getD j [])).length = 1 →
      (values.getD j default).Value = (j : Int) + 1 := by
  rcases haux : loadFancyLinesAux lines 0 [] with e | values₀
  · rw [loadSingleFancyDiceFile, haux] at h
    exact absurd h (by simp)
  · rw [loadSingleFancyDiceFile, haux] at h
    dsimp only at h
    by_cases hemp : values₀.isEmpty = true
    · rw [if_pos hemp] at h
      exact absurd h (by simp)
    · rw [if_neg hemp] at h
      have hvv : values₀ = values := by
        have := h
        simp at this
        exact this.2
      subst hvv
      rcases loadFancyLinesAux_ok lines 0 [] values₀ haux with ⟨vs, hv, hlen, hparse⟩
      have hvs : vs = values₀ := by simpa using hv.symm
      subst hvs
      refine ⟨hlen, ?_⟩
      intro j hj hsp
      have hp := hparse j hj
      have : ((([] : List FancyDieValue).length : Int) + j + 1) = (j : Int) + 1 := by
        simp
      rw [this] at hp
      exact parseFancyDiceLine_onepart _ _ _ hsp hp

/-- C7, witness: a file whose 5 physical lines hold 3 valid lines; the
value-less third valid line "Green" (physical line 5) scores 3. -/
theorem C7_witness :
    (([⟨"Red", 1⟩, ⟨"Blue", 5⟩, ⟨"Green", 3⟩] : List FancyDieValue).getD 2 default).Value =
      ((2 : Nat) : Int) + 1 :=
  (C7_default_score_is_position (["# colors", "Red", "", "Blue, 5", "Green"].map String.toList) "f3"
    [⟨"Red", 1⟩, ⟨"Blue", 5⟩, ⟨"Green", 3⟩] rfl).2 2 (by decide) (by decide)



end Dice
